import Mathlib

/-!
Shallow embedding of the rscoin transaction layer (`rscoin/__init__.py`).

Conventions of the embedding:
* a Python byte string is a `List Nat` (each entry a byte value);
* `struct.pack`/`struct.unpack` use native little-endian fixed-width
  integers; `pack` raises `struct.error` on out-of-range integers, so the
  packing functions return `Option` (`none` = raised exception);
* an uncaught Python exception anywhere (struct.error, IndexError,
  AssertionError) makes the surrounding modelled function return `none`;
* the external cryptographic library (petlib: sha256 digests, EC point
  export, ECDSA sign/verify) is abstracted as a `Crypto` bundle of total
  functions, as the specification declares it a trusted collaborator.
-/

namespace RSCoin

/-- Byte strings are lists of byte values. -/
abbrev Bytes := List Nat

/-- Little-endian encoding of `n` on `k` bytes (the digit stream of `struct.pack`). -/
def leBytes : Nat → Nat → Bytes
  | 0, _ => []
  | k + 1, n => n % 256 :: leBytes k (n / 256)

/-- Little-endian decoding of a byte string (`struct.unpack` of a fixed-width field). -/
def leNat (s : Bytes) : Nat := s.foldr (fun b acc => b + 256 * acc) 0

/-- Big-endian decoding of a byte string (petlib `Bn.from_binary`). -/
def beNat (s : Bytes) : Nat := s.foldl (fun acc b => 256 * acc + b) 0

/-- The `ks` field of `struct.pack`: truncate to `k` bytes and pad with zero bytes. -/
def packFixed (k : Nat) (s : Bytes) : Bytes :=
  s.take k ++ List.replicate (k - s.length) 0

/-- The `H` field of `struct.pack`: 2 bytes, `struct.error` when out of range. -/
def pack16 (n : Nat) : Option Bytes :=
  if n < 2 ^ 16 then some (leBytes 2 n) else none

/-- The `I` field of `struct.pack`: 4 bytes, `struct.error` when out of range. -/
def pack32 (n : Nat) : Option Bytes :=
  if n < 2 ^ 32 then some (leBytes 4 n) else none

/-- The `Q` field of `struct.pack`: 8 bytes, `struct.error` when out of range. -/
def pack64 (n : Nat) : Option Bytes :=
  if n < 2 ^ 64 then some (leBytes 8 n) else none

/-- `InputTx = namedtuple('InputTx', ['tx_id', 'pos'])`. -/
structure InputTx where
  tx_id : Bytes
  pos : Nat
  deriving DecidableEq, Repr

/-- `OutputTx = namedtuple('OutputTx', ['key_id', 'value'])`. -/
structure OutputTx where
  key_id : Bytes
  value : Nat
  deriving DecidableEq, Repr

/-- `class Tx`: a transaction is a list of inputs and a list of outputs. -/
structure Tx where
  inTx : List InputTx
  outTx : List OutputTx
  deriving DecidableEq, Repr

/-- Serialization of the input list: `pack("32sI", intx.tx_id, intx.pos)` per input. -/
def serIns : List InputTx → Option Bytes
  | [] => some []
  | i :: rest =>
    match pack32 i.pos, serIns rest with
    | some p, some r => some (packFixed 32 i.tx_id ++ p ++ r)
    | _, _ => none

/-- Serialization of the output list: `pack("32sQ", outtx.key_id, outtx.value)` per output. -/
def serOuts : List OutputTx → Option Bytes
  | [] => some []
  | o :: rest =>
    match pack64 o.value, serOuts rest with
    | some p, some r => some (packFixed 32 o.key_id ++ p ++ r)
    | _, _ => none

/-- `Tx.serialize`: `pack("HH", len(inTx), len(outTx))` header followed by the
input records and the output records; `none` models an uncaught `struct.error`. -/
def Tx.serialize (tx : Tx) : Option Bytes :=
  match pack16 tx.inTx.length, pack16 tx.outTx.length, serIns tx.inTx, serOuts tx.outTx with
  | some a, some b, some c, some d => some (a ++ b ++ c ++ d)
  | _, _, _, _ => none

/-- Parsing loop for inputs: each record is `unpack("32sI", data[:36])`; fails
(`struct.error`) when fewer than 36 bytes remain. -/
def parseIns : Nat → Bytes → Option (List InputTx × Bytes)
  | 0, data => some ([], data)
  | k + 1, data =>
    if 36 ≤ data.length then
      match parseIns k (data.drop 36) with
      | some (l, rest) =>
          some (⟨(data.take 36).take 32, leNat ((data.take 36).drop 32)⟩ :: l, rest)
      | none => none
    else none

/-- Parsing loop for outputs: each record is `unpack("32sQ", data[:40])`. -/
def parseOuts : Nat → Bytes → Option (List OutputTx × Bytes)
  | 0, data => some ([], data)
  | k + 1, data =>
    if 40 ≤ data.length then
      match parseOuts k (data.drop 40) with
      | some (l, rest) =>
          some (⟨(data.take 40).take 32, leNat ((data.take 40).drop 32)⟩ :: l, rest)
      | none => none
    else none

/-- `Tx.parse`: read the two 2-byte counts from `data[:4]`, then that many input
and output records; whatever trails the declared records is never examined. -/
def Tx.parse (data : Bytes) : Option Tx :=
  if 4 ≤ data.length then
    match parseIns (leNat (data.take 2)) (data.drop 4) with
    | some (ins, rest) =>
      match parseOuts (leNat ((data.drop 2).take 2)) rest with
      | some (outs, _) => some ⟨ins, outs⟩
      | none => none
    | none => none
  else none

/-- The abstracted external cryptographic library: a 32-byte hash digest
(`hashlib.sha256(...).digest()`), EC point export (`EcPt.export`), and the
ECDSA primitives (`do_ecdsa_sign` / `do_ecdsa_verify`). -/
structure Crypto where
  hash : Bytes → Bytes
  hash_len : ∀ b, (hash b).length = 32
  pubExport : Bytes → Bytes
  ecSign : Bytes → Bytes → Bytes × Bytes
  ecVerify : Bytes → Bytes → Nat → Nat → Bool

/-- `Tx.id`: `sha256(self.serialize()).digest()`; propagates a serialization crash. -/
def Tx.id (H : Bytes → Bytes) (tx : Tx) : Option Bytes :=
  (tx.serialize).map H

/-- `Key.id`: `sha256(self.pub.export()).digest()`, the fingerprint of the
public key whose raw construction bytes are `kb`. -/
def Crypto.fingerprint (c : Crypto) (kb : Bytes) : Bytes :=
  c.hash (c.pubExport kb)

/-- Exceptions distinguishable at the `Key.verify` boundary: a failed
`assert len(message) == 32`, or a `struct.error` from `unpack` on a
signature of the wrong length (the spec's FormatError class). -/
inductive VerifyErr where
  | assertFail
  | formatErr
  deriving DecidableEq, Repr

/-- Signature decoding inside `Key.verify`: `unpack("H32sH32s", sig)` requires
exactly 68 bytes, then each scalar is `Bn.from_binary` of the first `lr`
(resp. `ls`) bytes of its 32-byte field. -/
def sigDecode (sig : Bytes) : Option (Nat × Nat) :=
  if sig.length = 68 then
    some (beNat (((sig.drop 2).take 32).take (leNat (sig.take 2))),
          beNat (((sig.drop 36).take 32).take (leNat ((sig.drop 34).take 2))))
  else none

/-- `Key.verify` for the key built from raw bytes `kb`: asserts the message is
32 bytes, decodes the signature, and delegates to `do_ecdsa_verify`. -/
def Key.verify (c : Crypto) (kb msg sig : Bytes) : Except VerifyErr Bool :=
  if msg.length = 32 then
    match sigDecode sig with
    | some rs => Except.ok (c.ecVerify kb msg rs.1 rs.2)
    | none => Except.error VerifyErr.formatErr
  else Except.error VerifyErr.assertFail

/-- `Key.sign` for the secret key `sec`: asserts a 32-byte message, obtains the
scalar byte strings from `do_ecdsa_sign`, asserts both are at most 32 bytes,
and encodes them with `pack("H32sH32s", len(r0), r0, len(s0), s0)`. -/
def Key.sign (c : Crypto) (sec msg : Bytes) : Option Bytes :=
  if msg.length = 32 then
    let r0 := (c.ecSign sec msg).1
    let s0 := (c.ecSign sec msg).2
    if r0.length ≤ 32 ∧ s0.length ≤ 32 then
      match pack16 r0.length, pack16 s0.length with
      | some a, some b => some (a ++ packFixed 32 r0 ++ b ++ packFixed 32 s0)
      | _, _ => none
    else none
  else none

/-- Shared issuing-transaction branch (`len(evidence) == 0`) of both validators
(source lines 143-152 and 179-187, which are textually identical): the shape
booleans are folded into `all_good`, then `keys[0]` is read (IndexError on an
empty list), then `k.verify(self.id(), sigs[0])` runs unconditionally (its
`self.id()` can raise `struct.error` and `sigs[0]` IndexError). -/
def issuingCheck (c : Crypto) (tx : Tx) (keys sigs : List Bytes)
    (masterkey : Option Bytes) : Option Bool :=
  let g1 := decide (tx.inTx.length = 0)
  let g2 := decide (keys.length = 1) && decide (sigs.length = 1)
  match keys.head? with
  | none => none
  | some k0 =>
    let g3 := decide (masterkey = some k0)
    match Tx.id c.hash tx with
    | none => none
    | some txid =>
      match sigs.head? with
      | none => none
      | some s0 =>
        match Key.verify c k0 txid s0 with
        | Except.error _ => none
        | Except.ok v => some (g1 && g2 && g3 && v)

/-- Outcome of the per-input loop of `check_transaction_utxo`: either the loop
body executed `return False` early, or the loop finished with the final
`all_good` flag and the accumulated `val`. -/
inductive LoopOut where
  | earlyFalse
  | done (g : Bool) (val : Nat)
  deriving DecidableEq, Repr

/-- One signature-verification step of the validator loop, the call
`k.verify(self.id(), osig)`: `self.id()` can raise `struct.error` and the
signature `unpack` can raise on a wrong-length buffer — both are `none`;
otherwise the primitive's boolean verdict is returned. -/
def sigCheck (c : Crypto) (tx : Tx) (kb sb : Bytes) : Option Bool :=
  match Tx.id c.hash tx with
  | none => none
  | some m =>
    match Key.verify c kb m sb with
    | Except.error _ => none
    | Except.ok v => some v

/-- Per-input loop of `check_transaction_utxo` (source lines 197-212), walking
the four zipped lists with the running `all_good` flag `g` and value
accumulator `val`.  Each iteration folds the id and position comparisons into
`all_good` and returns `False` if it is now false; otherwise it folds in the
fingerprint comparison, adds the evidence amount, and folds in the verdict of
`k.verify(self.id(), osig)` (modelled by `sigCheck`, crash = `none`). -/
def utxoLoop (c : Crypto) (tx : Tx) :
    List (Bytes × Nat × Bytes × Nat) → List Bytes → List Bytes → List InputTx →
    Bool → Nat → Option LoopOut
  | u :: us, k :: ks, s :: ss, txin :: ins, g, val =>
    let g1 := g && decide (u.1 = txin.tx_id) && decide (u.2.1 = txin.pos)
    if g1 then
      let g2 := g1 && decide (u.2.2.1 = c.fingerprint k)
      match sigCheck c tx k s with
      | none => none
      | some v => utxoLoop c tx us ks ss ins (g2 && v) (val + u.2.2.2)
    else some LoopOut.earlyFalse
  | _, _, _, _, g, val => some (LoopOut.done g val)

/-- `Tx.check_transaction_utxo` (source lines 174-218): issuing branch when the
evidence list is empty, otherwise the shape check
`len(past_utxo) == len(keys) == len(sigs) == len(self.inTx)` (with the
redundant `len(past_utxo) > 0`), the per-input loop, and the final value
conservation check against the sum of the output amounts. -/
def Tx.check_transaction_utxo (c : Crypto) (tx : Tx)
    (past_utxo : List (Bytes × Nat × Bytes × Nat)) (keys sigs : List Bytes)
    (masterkey : Option Bytes) : Option Bool :=
  if past_utxo.length = 0 then issuingCheck c tx keys sigs masterkey
  else
    let shape := decide (0 < past_utxo.length) &&
      (decide (past_utxo.length = keys.length) && decide (keys.length = sigs.length) &&
        decide (sigs.length = tx.inTx.length))
    if shape then
      match utxoLoop c tx past_utxo keys sigs tx.inTx true 0 with
      | none => none
      | some LoopOut.earlyFalse => some false
      | some (LoopOut.done g val) =>
          some (g && decide (val = (tx.outTx.map OutputTx.value).sum))
    else some false

/-- Evidence-extraction loop of `check_transaction` (source lines 160-168):
per zipped pair it parses the prior transaction (`struct.error` = `none`),
computes `oTx.id()` for the comparison on line 164, indexes
`oTx.outTx[txin.pos]` (IndexError = `none`), and collects the tuple
`(txin.tx_id, txin.pos, outtx.key_id, outtx.value)`.  The source also folds
`txin.tx_id == oTx.id()` and `0 <= txin.pos < len(oTx.outTx)` into its
`all_good` accumulator here, but that accumulator is never consulted again:
line 170 returns the delegate's verdict alone, so those two booleans have no
effect on the result and only the crash points remain observable. -/
def wrapLoop (c : Crypto) : List (Bytes × InputTx) →
    Option (List (Bytes × Nat × Bytes × Nat))
  | [] => some []
  | (otx, txin) :: rest =>
    match Tx.parse otx with
    | none => none
    | some oTx =>
      match Tx.id c.hash oTx with
      | none => none
      | some _oid =>
        match oTx.outTx.get? txin.pos with
        | none => none
        | some outtx =>
          match wrapLoop c rest with
          | none => none
          | some acc => some ((txin.tx_id, txin.pos, outtx.key_id, outtx.value) :: acc)

/-- `Tx.check_transaction` (source lines 140-170): issuing branch when
`past_tx` is empty, otherwise the shape check, the evidence-extraction loop,
and delegation to `check_transaction_utxo` with `masterkey=None`. -/
def Tx.check_transaction (c : Crypto) (tx : Tx) (past_tx : List Bytes)
    (keys sigs : List Bytes) (masterkey : Option Bytes) : Option Bool :=
  if past_tx.length = 0 then issuingCheck c tx keys sigs masterkey
  else
    let shape := decide (past_tx.length = keys.length) &&
      decide (keys.length = sigs.length) && decide (sigs.length = tx.inTx.length)
    if shape then
      match wrapLoop c (past_tx.zip tx.inTx) with
      | none => none
      | some out_utxo => Tx.check_transaction_utxo c tx out_utxo keys sigs none
    else some false


/-! ### Basic facts about the packing primitives -/

lemma leBytes_length : ∀ (k n : Nat), (leBytes k n).length = k
  | 0, _ => rfl
  | k + 1, n => by simp [leBytes, leBytes_length k]

lemma leNat_cons (b : Nat) (s : Bytes) : leNat (b :: s) = b + 256 * leNat s := rfl

lemma leNat_leBytes : ∀ (k n : Nat), n < 256 ^ k → leNat (leBytes k n) = n := by
  intro k
  induction k with
  | zero => intro n h; interval_cases n; rfl
  | succ k ih =>
    intro n h
    have hdiv : n / 256 < 256 ^ k := by
      rw [Nat.div_lt_iff_lt_mul (by norm_num : 0 < 256)]
      calc n < 256 ^ (k + 1) := h
        _ = 256 ^ k * 256 := by ring
    rw [leBytes, leNat_cons, ih _ hdiv]
    omega

lemma packFixed_length (k : Nat) (s : Bytes) : (packFixed k s).length = k := by
  simp [packFixed]
  omega

lemma packFixed_of_length {k : Nat} {s : Bytes} (h : s.length = k) : packFixed k s = s := by
  simp [packFixed, h, List.take_of_length_le (le_of_eq h)]

lemma packFixed_idem (k : Nat) (s : Bytes) : packFixed k (packFixed k s) = packFixed k s :=
  packFixed_of_length (packFixed_length k s)

lemma pack16_some {n : Nat} {p : Bytes} (h : pack16 n = some p) :
    p = leBytes 2 n ∧ n < 2 ^ 16 := by
  rw [pack16] at h
  split at h
  next hlt => injection h with h2; exact ⟨h2.symm, hlt⟩
  next => exact absurd h (by simp)

lemma pack32_some {n : Nat} {p : Bytes} (h : pack32 n = some p) :
    p = leBytes 4 n ∧ n < 2 ^ 32 := by
  rw [pack32] at h
  split at h
  next hlt => injection h with h2; exact ⟨h2.symm, hlt⟩
  next => exact absurd h (by simp)

lemma pack64_some {n : Nat} {p : Bytes} (h : pack64 n = some p) :
    p = leBytes 8 n ∧ n < 2 ^ 64 := by
  rw [pack64] at h
  split at h
  next hlt => injection h with h2; exact ⟨h2.symm, hlt⟩
  next => exact absurd h (by simp)

lemma serIns_length : ∀ (l : List InputTx) (bs : Bytes),
    serIns l = some bs → bs.length = 36 * l.length := by
  intro l
  induction l with
  | nil => intro bs h; simp [serIns] at h; simp [← h]
  | cons i rest ih =>
    intro bs h
    rw [serIns] at h
    cases hp : pack32 i.pos with
    | none => rw [hp] at h; exact absurd h (by simp)
    | some p =>
      cases hr : serIns rest with
      | none => rw [hp, hr] at h; exact absurd h (by simp)
      | some r =>
        rw [hp, hr] at h
        have hb : packFixed 32 i.tx_id ++ p ++ r = bs := by
          simpa using h
        have hplen : p.length = 4 := by
          rw [(pack32_some hp).1, leBytes_length]
        rw [← hb]
        simp [packFixed_length, hplen, ih r hr]
        ring

lemma serOuts_length : ∀ (l : List OutputTx) (bs : Bytes),
    serOuts l = some bs → bs.length = 40 * l.length := by
  intro l
  induction l with
  | nil => intro bs h; simp [serOuts] at h; simp [← h]
  | cons o rest ih =>
    intro bs h
    rw [serOuts] at h
    cases hp : pack64 o.value with
    | none => rw [hp] at h; exact absurd h (by simp)
    | some p =>
      cases hr : serOuts rest with
      | none => rw [hp, hr] at h; exact absurd h (by simp)
      | some r =>
        rw [hp, hr] at h
        have hb : packFixed 32 o.key_id ++ p ++ r = bs := by
          simpa using h
        have hplen : p.length = 8 := by
          rw [(pack64_some hp).1, leBytes_length]
        rw [← hb]
        simp [packFixed_length, hplen, ih r hr]
        ring

/-! ### Claim C8: serialized size -/

/-- C8: for every transaction with `n` inputs and `m` outputs, both below
`2 ^ 16`, the byte string returned by `serialize` has length exactly
`4 + 36 * n + 40 * m` — a 4-byte header of two 2-byte counts, one 36-byte
record per input and one 40-byte record per output. -/
theorem c8_serialize_length (tx : Tx) (bs : Bytes)
    (hn : tx.inTx.length < 2 ^ 16) (hm : tx.outTx.length < 2 ^ 16)
    (h : Tx.serialize tx = some bs) :
    bs.length = 4 + 36 * tx.inTx.length + 40 * tx.outTx.length := by
  rw [Tx.serialize] at h
  cases ha : pack16 tx.inTx.length with
  | none => rw [ha] at h; exact absurd h (by simp)
  | some a =>
    cases hb : pack16 tx.outTx.length with
    | none => rw [ha, hb] at h; exact absurd h (by simp)
    | some b =>
      cases hc : serIns tx.inTx with
      | none => rw [ha, hb, hc] at h; exact absurd h (by simp)
      | some cc =>
        cases hd : serOuts tx.outTx with
        | none => rw [ha, hb, hc, hd] at h; exact absurd h (by simp)
        | some dd =>
          rw [ha, hb, hc, hd] at h
          have hbs : a ++ b ++ cc ++ dd = bs := by simpa using h
          have hla : a.length = 2 := by rw [(pack16_some ha).1, leBytes_length]
          have hlb : b.length = 2 := by rw [(pack16_some hb).1, leBytes_length]
          rw [← hbs]
          simp [hla, hlb, serIns_length _ _ hc, serOuts_length _ _ hd]
          ring

/-- Witness for C8 at a concrete one-input one-output transaction. -/
theorem c8_serialize_length_witness :
    ((Tx.serialize ⟨[⟨List.replicate 32 1, 0⟩], [⟨List.replicate 32 9, 5⟩]⟩).getD []).length
      = 4 + 36 * 1 + 40 * 1 :=
  c8_serialize_length ⟨[⟨List.replicate 32 1, 0⟩], [⟨List.replicate 32 9, 5⟩]⟩ _
    (by decide) (by decide) (by decide)

/-! ### Claim C9: signature encoding -/

/-- Concrete crypto bundle whose ECDSA signing primitive returns one-byte
scalars. -/
def cSigSmall : Crypto where
  hash := fun _ => List.replicate 32 0
  hash_len := fun _ => by simp
  pubExport := fun b => b
  ecSign := fun _ _ => ([1], [1])
  ecVerify := fun _ _ _ _ => true

/-- Concrete crypto bundle whose ECDSA signing primitive returns full 32-byte
scalars. -/
def cSigBig : Crypto where
  hash := fun _ => List.replicate 32 0
  hash_len := fun _ => by simp
  pubExport := fun b => b
  ecSign := fun _ _ => (List.replicate 32 255, List.replicate 32 255)
  ecVerify := fun _ _ _ _ => true

/-- C9 counterexample: with one-byte scalars and with full 32-byte scalars the
signature produced by `Key.sign` has the same total length 68, so the exact
size does not depend on the scalar magnitudes and the scalar fields are not
"up to 32 bytes": `pack("H32sH32s", ...)` zero-pads each scalar field to
exactly 32 bytes. -/
theorem c9_sign_length_constant :
    (Key.sign cSigSmall [] (List.replicate 32 0)).map List.length = some 68 ∧
    (Key.sign cSigBig [] (List.replicate 32 0)).map List.length = some 68 := by
  decide

/-- C9 amended: every signature produced by `Key.sign` is a 2-byte length
field followed by a 32-byte zero-padded scalar field, for `r` and then `s`,
with total length exactly 68 bytes regardless of the scalar magnitudes. -/
theorem c9_sign_format (c : Crypto) (sec msg bs : Bytes)
    (h : Key.sign c sec msg = some bs) :
    ∃ r0 s0 : Bytes, r0.length ≤ 32 ∧ s0.length ≤ 32 ∧
      bs = leBytes 2 r0.length ++ packFixed 32 r0 ++
           leBytes 2 s0.length ++ packFixed 32 s0 ∧
      bs.length = 68 := by
  simp only [Key.sign] at h
  split at h
  next hmsg =>
    split at h
    next hlen =>
      have h1 : pack16 (c.ecSign sec msg).1.length
          = some (leBytes 2 (c.ecSign sec msg).1.length) := by
        rw [pack16, if_pos (lt_of_le_of_lt hlen.1 (by norm_num))]
      have h2 : pack16 (c.ecSign sec msg).2.length
          = some (leBytes 2 (c.ecSign sec msg).2.length) := by
        rw [pack16, if_pos (lt_of_le_of_lt hlen.2 (by norm_num))]
      rw [h1, h2] at h
      injection h with hb
      refine ⟨(c.ecSign sec msg).1, (c.ecSign sec msg).2, hlen.1, hlen.2, hb.symm, ?_⟩
      rw [← hb]
      simp [leBytes_length, packFixed_length]
    next => exact absurd h (by simp)
  next => exact absurd h (by simp)

/-- Witness for the amended C9 at the concrete small-scalar signer. -/
theorem c9_sign_format_witness :
    ∃ r0 s0 : Bytes, r0.length ≤ 32 ∧ s0.length ≤ 32 ∧
      (Key.sign cSigSmall [] (List.replicate 32 0)).getD [] =
        leBytes 2 r0.length ++ packFixed 32 r0 ++
        leBytes 2 s0.length ++ packFixed 32 s0 ∧
      ((Key.sign cSigSmall [] (List.replicate 32 0)).getD []).length = 68 :=
  c9_sign_format cSigSmall [] (List.replicate 32 0) _ (by decide)

/-! ### Claim C6: `Key.verify` fails closed -/

/-- C6: for a 32-byte message, `Key.verify` either returns a boolean (exactly
when the signature buffer is the 68 bytes the `unpack` format requires — every
68-byte buffer decodes, with each scalar read from its declared-length slice),
or raises only the `struct.error`/FormatError-class failure on a wrong-length
signature; no other exception escapes. -/
theorem c6_verify_fails_closed (c : Crypto) (kb msg sig : Bytes)
    (hmsg : msg.length = 32) :
    ((∃ b, Key.verify c kb msg sig = Except.ok b) ↔ sig.length = 68) ∧
    ∀ e, Key.verify c kb msg sig = Except.error e → e = VerifyErr.formatErr := by
  by_cases hs : sig.length = 68 <;>
    simp [Key.verify, sigDecode, hmsg, hs, eq_comm]

/-- Witness for C6: a 32-byte message with a 68-byte signature decodes to a
boolean verdict, and the theorem's hypotheses hold at this input. -/
theorem c6_verify_fails_closed_witness :
    (List.replicate 32 0 : Bytes).length = 32 ∧
    (((∃ b, Key.verify cSigSmall [7] (List.replicate 32 0) (List.replicate 68 0)
        = Except.ok b) ↔ (List.replicate 68 0 : Bytes).length = 68) ∧
      ∀ e, Key.verify cSigSmall [7] (List.replicate 32 0) (List.replicate 68 0)
        = Except.error e → e = VerifyErr.formatErr) :=
  ⟨by decide, c6_verify_fails_closed cSigSmall [7] (List.replicate 32 0)
    (List.replicate 68 0) (by decide)⟩

/-! ### Concrete validator scenarios (claims C2, C3, C5) -/

/-- Concrete crypto bundle for validator scenarios: constant 32-byte digest
and an ECDSA primitive that accepts every decoded signature. -/
def cDemo : Crypto where
  hash := fun _ => List.replicate 32 0
  hash_len := fun _ => by simp
  pubExport := fun b => b
  ecSign := fun _ _ => ([1], [1])
  ecVerify := fun _ _ _ _ => true

/-- Concrete prior transaction: no inputs, one output of amount 5 owned by the
fingerprint of every key under `cDemo` (the constant digest). -/
def prDemo : Tx := ⟨[], [⟨List.replicate 32 0, 5⟩]⟩

/-- Serialization of `prDemo`, the whole-transaction evidence byte string. -/
def otxDemo : Bytes := (Tx.serialize prDemo).getD []

/-- Concrete spending transaction claiming a prior transaction id (32 ones)
that is NOT the id of `prDemo` under `cDemo` (the constant digest, 32 zeros). -/
def txDemo : Tx := ⟨[⟨List.replicate 32 1, 0⟩], [⟨List.replicate 32 9, 5⟩]⟩

/-- A well-formed 68-byte signature buffer. -/
def sigDemo : Bytes := List.replicate 68 0

/-- C2 refuted on the code: the prior transaction parsed from the evidence has
id 32 zeros while the input claims id 32 ones, yet `check_transaction`
ACCEPTS: the loop folds `txin.tx_id == oTx.id()` into `all_good`, but line 170
returns the delegate's verdict and never consults `all_good`, and the delegate
only sees the tuple rebuilt from `txin.tx_id` itself. -/
theorem c2_id_mismatch_accepted :
    Tx.parse otxDemo = some prDemo ∧
    Tx.id cDemo.hash prDemo = some (List.replicate 32 0) ∧
    txDemo.inTx = [⟨List.replicate 32 1, 0⟩] ∧
    (List.replicate 32 0 : Bytes) ≠ List.replicate 32 1 ∧
    Tx.check_transaction cDemo txDemo [otxDemo] [[7]] [sigDemo] none = some true := by
  decide

/-- C3 refuted on the code at the empty-evidence shape: with zero keys and
zero signatures the issuing branch evaluates `keys[0]` after its shape checks
have already failed, so both validators raise an uncaught IndexError (`none`)
instead of rejecting with `False`. -/
theorem c3_issuing_empty_keys_crash :
    Tx.check_transaction_utxo cDemo ⟨[], []⟩ [] [] [] none = none ∧
    Tx.check_transaction cDemo ⟨[], []⟩ [] [] [] none = none := by
  decide

/-- C5 refuted on the code: the evidence transaction `prDemo` has exactly one
output, the input references output index 1, and `check_transaction` evaluates
`oTx.outTx[txin.pos]` even though its range check just failed, so it raises an
uncaught IndexError (`none`) instead of returning a rejection. -/
theorem c5_index_out_of_range_crash :
    Tx.parse otxDemo = some prDemo ∧
    prDemo.outTx.length = 1 ∧
    Tx.check_transaction cDemo ⟨[⟨List.replicate 32 1, 1⟩], [⟨List.replicate 32 9, 5⟩]⟩
      [otxDemo] [[7]] [sigDemo] none = none := by
  decide

/-! ### Round-trip of `serialize` and `parse` (claims C7, C10) -/

/-- Canonical form of an input record as `parse` recovers it: the id field is
truncated or zero-padded to exactly 32 bytes by `pack("32s", ...)`. -/
def canonIn (i : InputTx) : InputTx := ⟨packFixed 32 i.tx_id, i.pos⟩

/-- Canonical form of an output record as `parse` recovers it. -/
def canonOut (o : OutputTx) : OutputTx := ⟨packFixed 32 o.key_id, o.value⟩

lemma parseIns_serIns : ∀ (l : List InputTx) (bs extra : Bytes),
    serIns l = some bs →
    parseIns l.length (bs ++ extra) = some (l.map canonIn, extra) := by
  intro l
  induction l with
  | nil =>
    intro bs extra h
    simp [serIns] at h
    simp [← h, parseIns]
  | cons i rest ih =>
    intro bs extra h
    rw [serIns] at h
    cases hp : pack32 i.pos with
    | none => rw [hp] at h; exact absurd h (by simp)
    | some p =>
      cases hr : serIns rest with
      | none => rw [hp, hr] at h; exact absurd h (by simp)
      | some r =>
        rw [hp, hr] at h
        injection h with hb
        obtain ⟨hpval, hplt⟩ := pack32_some hp
        subst hpval
        subst hb
        have hlen36 : (packFixed 32 i.tx_id ++ leBytes 4 i.pos).length = 36 := by
          simp [packFixed_length, leBytes_length]
        have hassoc : (packFixed 32 i.tx_id ++ leBytes 4 i.pos ++ r) ++ extra
            = (packFixed 32 i.tx_id ++ leBytes 4 i.pos) ++ (r ++ extra) := by
          simp [List.append_assoc]
        have htake : ((packFixed 32 i.tx_id ++ leBytes 4 i.pos ++ r) ++ extra).take 36
            = packFixed 32 i.tx_id ++ leBytes 4 i.pos := by
          rw [hassoc]; exact List.take_left' hlen36
        have hdrop : ((packFixed 32 i.tx_id ++ leBytes 4 i.pos ++ r) ++ extra).drop 36
            = r ++ extra := by
          rw [hassoc]; exact List.drop_left' hlen36
        have hge : 36 ≤ ((packFixed 32 i.tx_id ++ leBytes 4 i.pos ++ r) ++ extra).length := by
          rw [hassoc, List.length_append, hlen36]; omega
        rw [List.length_cons, parseIns, if_pos hge, hdrop, ih r extra hr, htake,
          List.take_left' (packFixed_length 32 i.tx_id),
          List.drop_left' (packFixed_length 32 i.tx_id),
          leNat_leBytes 4 i.pos (by norm_num at hplt ⊢; exact hplt)]
        simp [canonIn]

lemma parseOuts_serOuts : ∀ (l : List OutputTx) (bs extra : Bytes),
    serOuts l = some bs →
    parseOuts l.length (bs ++ extra) = some (l.map canonOut, extra) := by
  intro l
  induction l with
  | nil =>
    intro bs extra h
    simp [serOuts] at h
    simp [← h, parseOuts]
  | cons o rest ih =>
    intro bs extra h
    rw [serOuts] at h
    cases hp : pack64 o.value with
    | none => rw [hp] at h; exact absurd h (by simp)
    | some p =>
      cases hr : serOuts rest with
      | none => rw [hp, hr] at h; exact absurd h (by simp)
      | some r =>
        rw [hp, hr] at h
        injection h with hb
        obtain ⟨hpval, hplt⟩ := pack64_some hp
        subst hpval
        subst hb
        have hlen40 : (packFixed 32 o.key_id ++ leBytes 8 o.value).length = 40 := by
          simp [packFixed_length, leBytes_length]
        have hassoc : (packFixed 32 o.key_id ++ leBytes 8 o.value ++ r) ++ extra
            = (packFixed 32 o.key_id ++ leBytes 8 o.value) ++ (r ++ extra) := by
          simp [List.append_assoc]
        have htake : ((packFixed 32 o.key_id ++ leBytes 8 o.value ++ r) ++ extra).take 40
            = packFixed 32 o.key_id ++ leBytes 8 o.value := by
          rw [hassoc]; exact List.take_left' hlen40
        have hdrop : ((packFixed 32 o.key_id ++ leBytes 8 o.value ++ r) ++ extra).drop 40
            = r ++ extra := by
          rw [hassoc]; exact List.drop_left' hlen40
        have hge : 40 ≤ ((packFixed 32 o.key_id ++ leBytes 8 o.value ++ r) ++ extra).length := by
          rw [hassoc, List.length_append, hlen40]; omega
        rw [List.length_cons, parseOuts, if_pos hge, hdrop, ih r extra hr, htake,
          List.take_left' (packFixed_length 32 o.key_id),
          List.drop_left' (packFixed_length 32 o.key_id),
          leNat_leBytes 8 o.value (by norm_num at hplt ⊢; exact hplt)]
        simp [canonOut]

lemma serIns_canon : ∀ l : List InputTx, serIns (l.map canonIn) = serIns l := by
  intro l
  induction l with
  | nil => rfl
  | cons i rest ih =>
    simp only [List.map_cons, canonIn, serIns, ih]
    cases pack32 i.pos <;> cases serIns rest <;> simp [packFixed_idem]

lemma serOuts_canon : ∀ l : List OutputTx, serOuts (l.map canonOut) = serOuts l := by
  intro l
  induction l with
  | nil => rfl
  | cons o rest ih =>
    simp only [List.map_cons, canonOut, serOuts, ih]
    cases pack64 o.value <;> cases serOuts rest <;> simp [packFixed_idem]

/-- Core round-trip fact shared by C7 and C10: parsing a serialized
transaction followed by arbitrary trailing bytes succeeds, recovers the
canonicalized records, and the recovered transaction re-serializes to the very
same byte string. -/
lemma roundtrip_core (tx : Tx) (bs extra : Bytes) (h : Tx.serialize tx = some bs) :
    Tx.parse (bs ++ extra) = some ⟨tx.inTx.map canonIn, tx.outTx.map canonOut⟩ ∧
    Tx.serialize ⟨tx.inTx.map canonIn, tx.outTx.map canonOut⟩ = some bs := by
  rw [Tx.serialize] at h
  cases ha : pack16 tx.inTx.length with
  | none => rw [ha] at h; exact absurd h (by simp)
  | some a =>
  cases hb : pack16 tx.outTx.length with
  | none => rw [ha, hb] at h; exact absurd h (by simp)
  | some b =>
  cases hc : serIns tx.inTx with
  | none => rw [ha, hb, hc] at h; exact absurd h (by simp)
  | some cc =>
  cases hd : serOuts tx.outTx with
  | none => rw [ha, hb, hc, hd] at h; exact absurd h (by simp)
  | some dd =>
  rw [ha, hb, hc, hd] at h
  injection h with hbs
  obtain ⟨haval, halt⟩ := pack16_some ha
  obtain ⟨hbval, hblt⟩ := pack16_some hb
  have hla : a.length = 2 := by rw [haval, leBytes_length]
  have hlb : b.length = 2 := by rw [hbval, leBytes_length]
  have hlab : (a ++ b).length = 4 := by simp [hla, hlb]
  have hassoc : (a ++ b ++ cc ++ dd) ++ extra = (a ++ b) ++ (cc ++ (dd ++ extra)) := by
    simp [List.append_assoc]
  constructor
  · rw [← hbs, Tx.parse]
    have hge : 4 ≤ ((a ++ b ++ cc ++ dd) ++ extra).length := by
      rw [hassoc, List.length_append, hlab]; omega
    have htake2 : ((a ++ b ++ cc ++ dd) ++ extra).take 2 = a := by
      rw [hassoc, List.take_append_of_le_length (by omega : 2 ≤ (a ++ b).length),
        List.take_left' hla]
    have hdrop2 : ((a ++ b ++ cc ++ dd) ++ extra).drop 2
        = b ++ (cc ++ (dd ++ extra)) := by
      rw [hassoc, List.drop_append_of_le_length (by omega : 2 ≤ (a ++ b).length),
        List.drop_left' hla]
    have hdrop4 : ((a ++ b ++ cc ++ dd) ++ extra).drop 4 = cc ++ (dd ++ extra) := by
      rw [hassoc]; exact List.drop_left' hlab
    have hna : leNat a = tx.inTx.length := by
      rw [haval]; exact leNat_leBytes 2 _ (by norm_num at halt ⊢; exact halt)
    have hnb : leNat (b.take 2) = tx.outTx.length := by
      rw [List.take_of_length_le (le_of_eq hlb), hbval]
      exact leNat_leBytes 2 _ (by norm_num at hblt ⊢; exact hblt)
    rw [if_pos hge, htake2, hna, hdrop2,
      List.take_append_of_le_length (le_of_eq hlb.symm), hnb, hdrop4,
      parseIns_serIns tx.inTx cc (dd ++ extra) hc]
    simp [parseOuts_serOuts tx.outTx dd extra hd]
  · rw [Tx.serialize]
    simp only [List.length_map]
    rw [ha, hb, serIns_canon, serOuts_canon, hc, hd]
    exact congrArg some hbs

/-- C7: parsing a serialized transaction gives back a transaction equal to the
original under the `__eq__` contract (equality of content-addressed ids for
the hash digest `H`), and the id is the fixed digest of the canonical
serialization, hence identical across repeated calls. -/
theorem c7_roundtrip (H : Bytes → Bytes) (tx : Tx) (bs : Bytes)
    (h : Tx.serialize tx = some bs) :
    (∃ t2, Tx.parse bs = some t2 ∧ Tx.id H t2 = Tx.id H tx) ∧
    Tx.id H tx = some (H bs) := by
  obtain ⟨hp, hs⟩ := roundtrip_core tx bs [] h
  rw [List.append_nil] at hp
  refine ⟨⟨_, hp, ?_⟩, ?_⟩
  · rw [Tx.id, Tx.id, hs, h]
  · rw [Tx.id, h, Option.map_some']

/-- Witness for C7 at a concrete one-input one-output transaction. -/
theorem c7_roundtrip_witness :
    (∃ t2, Tx.parse ((Tx.serialize txDemo).getD []) = some t2 ∧
      Tx.id cDemo.hash t2 = Tx.id cDemo.hash txDemo) ∧
    Tx.id cDemo.hash txDemo = some (cDemo.hash ((Tx.serialize txDemo).getD [])) :=
  c7_roundtrip cDemo.hash txDemo _ (by decide)

/-- C10: `parse` silently ignores any bytes trailing the records declared by
the two leading counts; parsing `serialize(tx) ++ extra` succeeds and returns
a transaction equal to `tx` under the id-equality contract. -/
theorem c10_trailing_bytes_ignored (H : Bytes → Bytes) (tx : Tx) (bs extra : Bytes)
    (h : Tx.serialize tx = some bs) :
    ∃ t2, Tx.parse (bs ++ extra) = some t2 ∧ Tx.id H t2 = Tx.id H tx := by
  obtain ⟨hp, hs⟩ := roundtrip_core tx bs extra h
  refine ⟨_, hp, ?_⟩
  rw [Tx.id, Tx.id, hs, h]

/-- Witness for C10: three junk bytes appended to a serialized transaction are
ignored by `parse`. -/
theorem c10_trailing_bytes_ignored_witness :
    ∃ t2, Tx.parse ((Tx.serialize txDemo).getD [] ++ [9, 9, 9]) = some t2 ∧
      Tx.id cDemo.hash t2 = Tx.id cDemo.hash txDemo :=
  c10_trailing_bytes_ignored cDemo.hash txDemo _ [9, 9, 9] (by decide)

/-! ### Claim C1: tuple-based validator characterization -/

/-- Pointwise success of the per-input checks, exactly as the claim lists
them: at every position the evidence id and index equal the input's id and
index, the evidence owner fingerprint equals the supplied key's fingerprint,
and `k.verify(self.id(), osig)` returns true. -/
def goodIdx (c : Crypto) (tx : Tx) (us : List (Bytes × Nat × Bytes × Nat))
    (ks ss : List Bytes) (ins : List InputTx) : Prop :=
  ∀ i u k s txin, us.get? i = some u → ks.get? i = some k → ss.get? i = some s →
    ins.get? i = some txin →
    u.1 = txin.tx_id ∧ u.2.1 = txin.pos ∧ u.2.2.1 = c.fingerprint k ∧
    sigCheck c tx k s = some true

lemma goodIdx_nil (c : Crypto) (tx : Tx) (ks ss : List Bytes) (ins : List InputTx) :
    goodIdx c tx [] ks ss ins := by
  intro i u k s txin h1
  simp at h1

lemma goodIdx_cons {c : Crypto} {tx : Tx} {u : Bytes × Nat × Bytes × Nat}
    {us : List (Bytes × Nat × Bytes × Nat)} {k : Bytes} {ks : List Bytes}
    {s : Bytes} {ss : List Bytes} {txin : InputTx} {ins : List InputTx} :
    goodIdx c tx (u :: us) (k :: ks) (s :: ss) (txin :: ins) ↔
      (u.1 = txin.tx_id ∧ u.2.1 = txin.pos ∧ u.2.2.1 = c.fingerprint k ∧
        sigCheck c tx k s = some true) ∧ goodIdx c tx us ks ss ins := by
  constructor
  · intro h
    refine ⟨h 0 u k s txin rfl rfl rfl rfl, ?_⟩
    intro i u2 k2 s2 txin2 h1 h2 h3 h4
    exact h (i + 1) u2 k2 s2 txin2 h1 h2 h3 h4
  · rintro ⟨h0, hrest⟩ i u2 k2 s2 txin2 h1 h2 h3 h4
    cases i with
    | zero =>
      injection h1 with e1
      injection h2 with e2
      injection h3 with e3
      injection h4 with e4
      subst e1; subst e2; subst e3; subst e4
      exact h0
    | succ i => exact hrest i u2 k2 s2 txin2 h1 h2 h3 h4

lemma utxoLoop_false (c : Crypto) (tx : Tx)
    (us : List (Bytes × Nat × Bytes × Nat)) (ks ss : List Bytes)
    (ins : List InputTx) (val w : Nat) :
    utxoLoop c tx us ks ss ins false val ≠ some (LoopOut.done true w) := by
  cases us with
  | nil => simp [utxoLoop]
  | cons u us2 =>
    cases ks with
    | nil => simp [utxoLoop]
    | cons k ks2 =>
      cases ss with
      | nil => simp [utxoLoop]
      | cons s ss2 =>
        cases ins with
        | nil => simp [utxoLoop]
        | cons txin ins2 => simp [utxoLoop]

/-- Characterization of the per-input loop run with `all_good = True`: it ends
in `done True w` exactly when every per-input check succeeds and `w` is the
starting accumulator plus the sum of the evidence amounts. -/
lemma utxoLoop_true_iff (c : Crypto) (tx : Tx) :
    ∀ (us : List (Bytes × Nat × Bytes × Nat)) (ks ss : List Bytes)
      (ins : List InputTx) (val w : Nat),
      us.length = ks.length → ks.length = ss.length → ss.length = ins.length →
      (utxoLoop c tx us ks ss ins true val = some (LoopOut.done true w) ↔
        (goodIdx c tx us ks ss ins ∧
          w = val + (us.map (fun u => u.2.2.2)).sum)) := by
  intro us
  induction us with
  | nil =>
    intro ks ss ins val w h1 h2 h3
    simp [utxoLoop, goodIdx_nil, eq_comm]
  | cons u us2 ih =>
    intro ks ss ins val w h1 h2 h3
    cases ks with
    | nil => simp at h1
    | cons k ks2 =>
    cases ss with
    | nil => simp at h2
    | cons s ss2 =>
    cases ins with
    | nil => simp at h3
    | cons txin ins2 =>
    simp only [List.length_cons] at h1 h2 h3
    have h1' : us2.length = ks2.length := by omega
    have h2' : ks2.length = ss2.length := by omega
    have h3' : ss2.length = ins2.length := by omega
    by_cases hid : u.1 = txin.tx_id
    · by_cases hpv : u.2.1 = txin.pos
      · simp only [utxoLoop]
        rw [if_pos (show (true && decide (u.1 = txin.tx_id) &&
            decide (u.2.1 = txin.pos)) = true from by simp [hid, hpv])]
        cases hsc : sigCheck c tx k s with
        | none =>
          simp only []
          constructor
          · intro h; exact absurd h (by simp)
          · rintro ⟨hall, -⟩
            have hx := ((goodIdx_cons).1 hall).1.2.2.2
            rw [hsc] at hx
            exact absurd hx (by simp)
        | some v =>
          simp only []
          by_cases hfp : u.2.2.1 = c.fingerprint k
          · cases v with
            | true =>
              rw [show (true && decide (u.1 = txin.tx_id) && decide (u.2.1 = txin.pos) &&
                    decide (u.2.2.1 = c.fingerprint k) && true) = true
                  from by simp [hid, hpv, hfp],
                ih ks2 ss2 ins2 (val + u.2.2.2) w h1' h2' h3', goodIdx_cons]
              constructor
              · rintro ⟨hrest, hw⟩
                refine ⟨⟨⟨hid, hpv, hfp, hsc⟩, hrest⟩, ?_⟩
                simp [hw]; ring
              · rintro ⟨⟨-, hrest⟩, hw⟩
                refine ⟨hrest, ?_⟩
                rw [hw]; simp; ring
            | false =>
              rw [show (true && decide (u.1 = txin.tx_id) && decide (u.2.1 = txin.pos) &&
                    decide (u.2.2.1 = c.fingerprint k) && false) = false
                  from by simp]
              constructor
              · intro h; exact absurd h (utxoLoop_false c tx us2 ks2 ss2 ins2 _ w)
              · rintro ⟨hall, -⟩
                have hx := ((goodIdx_cons).1 hall).1.2.2.2
                rw [hsc] at hx
                exact absurd hx (by simp)
          · rw [show (true && decide (u.1 = txin.tx_id) && decide (u.2.1 = txin.pos) &&
                  decide (u.2.2.1 = c.fingerprint k) && v) = false
                from by simp [hfp]]
            constructor
            · intro h; exact absurd h (utxoLoop_false c tx us2 ks2 ss2 ins2 _ w)
            · rintro ⟨hall, -⟩
              exact absurd ((goodIdx_cons).1 hall).1.2.2.1 hfp
      · simp only [utxoLoop]
        rw [if_neg (show ¬ (true && decide (u.1 = txin.tx_id) &&
            decide (u.2.1 = txin.pos)) = true from by simp [hpv])]
        constructor
        · intro h; exact absurd h (by simp)
        · rintro ⟨hall, -⟩
          exact absurd ((goodIdx_cons).1 hall).1.2.1 hpv
    · simp only [utxoLoop]
      rw [if_neg (show ¬ (true && decide (u.1 = txin.tx_id) &&
          decide (u.2.1 = txin.pos)) = true from by simp [hid])]
      constructor
      · intro h; exact absurd h (by simp)
      · rintro ⟨hall, -⟩
        exact absurd ((goodIdx_cons).1 hall).1.1 hid

/-- C1: for evidence, key and signature lists of the same positive length as
the inputs, the tuple-based validator accepts exactly when, at every position,
the evidence id and index equal the input's id and index, the supplied key's
fingerprint equals the evidence owner fingerprint, the signature verifies
against the transaction id under that key, and the accumulated evidence
amounts equal the exact sum of the output amounts. -/
theorem c1_utxo_accept_iff (c : Crypto) (tx : Tx)
    (past_utxo : List (Bytes × Nat × Bytes × Nat)) (keys sigs : List Bytes)
    (mk : Option Bytes)
    (h1 : past_utxo.length = keys.length) (h2 : keys.length = sigs.length)
    (h3 : sigs.length = tx.inTx.length) (hpos : 0 < past_utxo.length) :
    Tx.check_transaction_utxo c tx past_utxo keys sigs mk = some true ↔
      (goodIdx c tx past_utxo keys sigs tx.inTx ∧
        (past_utxo.map (fun u => u.2.2.2)).sum = (tx.outTx.map OutputTx.value).sum) := by
  rw [Tx.check_transaction_utxo, if_neg (by omega)]
  have hp2 : 0 < tx.inTx.length := by omega
  have hshape : (decide (0 < past_utxo.length) &&
      (decide (past_utxo.length = keys.length) && decide (keys.length = sigs.length) &&
        decide (sigs.length = tx.inTx.length))) = true := by
    simp [hpos, h1, h2, h3, hp2]
  rw [hshape]
  simp only []
  rw [if_pos trivial]
  cases hloop : utxoLoop c tx past_utxo keys sigs tx.inTx true 0 with
  | none =>
    constructor
    · intro h; exact absurd h (by simp)
    · rintro ⟨hall, hsum⟩
      have := (utxoLoop_true_iff c tx past_utxo keys sigs tx.inTx 0
        (0 + (past_utxo.map (fun u => u.2.2.2)).sum) h1 h2 h3).2 ⟨hall, rfl⟩
      rw [hloop] at this
      exact absurd this (by simp)
  | some out =>
    cases out with
    | earlyFalse =>
      constructor
      · intro h; exact absurd h (by simp)
      · rintro ⟨hall, hsum⟩
        have := (utxoLoop_true_iff c tx past_utxo keys sigs tx.inTx 0
          (0 + (past_utxo.map (fun u => u.2.2.2)).sum) h1 h2 h3).2 ⟨hall, rfl⟩
        rw [hloop] at this
        exact absurd this (by simp)
    | done g val =>
      constructor
      · intro h
        have hgv : g = true ∧ val = (tx.outTx.map OutputTx.value).sum := by
          have := Option.some.inj h
          constructor
          · cases g with
            | false => simp at this
            | true => rfl
          · have : (g && decide (val = (tx.outTx.map OutputTx.value).sum)) = true := this
            simp at this
            exact this.2
        obtain ⟨hg, hval⟩ := hgv
        subst hg
        have hch := (utxoLoop_true_iff c tx past_utxo keys sigs tx.inTx 0 val
          h1 h2 h3).1 hloop
        refine ⟨hch.1, ?_⟩
        have := hch.2
        omega
      · rintro ⟨hall, hsum⟩
        have := (utxoLoop_true_iff c tx past_utxo keys sigs tx.inTx 0
          (0 + (past_utxo.map (fun u => u.2.2.2)).sum) h1 h2 h3).2 ⟨hall, rfl⟩
        rw [hloop] at this
        injection this with hdone
        injection hdone with hg hval
        subst hg
        have : val = (tx.outTx.map OutputTx.value).sum := by omega
        simp [this]

/-- Witness for C1 at a concrete single-input spending transaction whose
evidence, key, signature and amounts all line up. -/
theorem c1_utxo_accept_iff_witness :
    Tx.check_transaction_utxo cDemo txDemo
        [(List.replicate 32 1, 0, List.replicate 32 0, 5)] [[7]] [sigDemo] none
      = some true ↔
      (goodIdx cDemo txDemo [(List.replicate 32 1, 0, List.replicate 32 0, 5)]
          [[7]] [sigDemo] txDemo.inTx ∧
        ([(List.replicate 32 1, 0, List.replicate 32 0, 5)].map
            (fun u => u.2.2.2)).sum
          = (txDemo.outTx.map OutputTx.value).sum) :=
  c1_utxo_accept_iff cDemo txDemo
    [(List.replicate 32 1, 0, List.replicate 32 0, 5)] [[7]] [sigDemo] none
    (by decide) (by decide) (by decide) (by decide)

/-! ### Claim C4: the whole-transaction entry point refines the tuple-based one -/

/-- Spec-side definition for the refinement claim: from each whole prior
transaction (aligned with its input), the genuine UTXO tuple — the parsed
prior transaction's own id, the referenced output position, and that output's
owner fingerprint and amount, the `(id, index, owner_fingerprint, amount)`
shape the specification gives the tuple-based entry point. -/
def extractEv (c : Crypto) :
    List (Bytes × InputTx) → Option (List (Bytes × Nat × Bytes × Nat))
  | [] => some []
  | (otx, txin) :: rest =>
    match Tx.parse otx with
    | none => none
    | some p =>
      match Tx.id c.hash p, p.outTx.get? txin.pos, extractEv c rest with
      | some tid, some o, some acc => some ((tid, txin.pos, o.key_id, o.value) :: acc)
      | _, _, _ => none

/-- Under consistent evidence the wrapper's extraction loop succeeds and
produces exactly the spec-side genuine tuples. -/
lemma wrapLoop_extract (c : Crypto) : ∀ pairs : List (Bytes × InputTx),
    (∀ i otx txin, pairs.get? i = some (otx, txin) →
      ∃ p, Tx.parse otx = some p ∧ Tx.id c.hash p = some txin.tx_id ∧
        txin.pos < p.outTx.length) →
    ∃ ts, wrapLoop c pairs = some ts ∧ extractEv c pairs = some ts ∧
      ts.length = pairs.length := by
  intro pairs
  induction pairs with
  | nil => intro _; exact ⟨[], rfl, rfl, rfl⟩
  | cons pr rest ih =>
    intro h
    obtain ⟨otx, txin⟩ := pr
    obtain ⟨p, hp, hpid, hpos⟩ := h 0 otx txin rfl
    obtain ⟨ts, hw, he, hl⟩ := ih (fun i otx2 txin2 hi => h (i + 1) otx2 txin2 hi)
    have ho : p.outTx.get? txin.pos = some (p.outTx.get ⟨txin.pos, hpos⟩) :=
      List.get?_eq_get hpos
    refine ⟨(txin.tx_id, txin.pos, (p.outTx.get ⟨txin.pos, hpos⟩).key_id,
      (p.outTx.get ⟨txin.pos, hpos⟩).value) :: ts, ?_, ?_, by simp [hl]⟩
    · simp only [wrapLoop, hp, hpid, ho, hw]
    · simp only [extractEv, hp, hpid, ho, he]

/-- The masterkey parameter is unread on the non-issuing path of the
tuple-based validator. -/
lemma check_utxo_mk_irrel (c : Crypto) (tx : Tx)
    (u : List (Bytes × Nat × Bytes × Nat)) (keys sigs : List Bytes)
    (mk1 mk2 : Option Bytes) (h : u ≠ []) :
    Tx.check_transaction_utxo c tx u keys sigs mk1
      = Tx.check_transaction_utxo c tx u keys sigs mk2 := by
  rw [Tx.check_transaction_utxo, Tx.check_transaction_utxo,
    if_neg (fun h0 => h (List.length_eq_zero.mp h0)),
    if_neg (fun h0 => h (List.length_eq_zero.mp h0))]

/-- C4: given consistent evidence — each prior transaction parses, its own id
equals the id the aligned input claims, and the referenced output index is in
range — the whole-transaction entry point and the tuple-based entry point on
the extracted genuine tuples reach identical accept/reject decisions. -/
theorem c4_wrapper_refines_utxo (c : Crypto) (tx : Tx) (past_tx : List Bytes)
    (keys sigs : List Bytes) (mk : Option Bytes)
    (hlen : past_tx.length = tx.inTx.length)
    (hcons : ∀ i otx txin, past_tx.get? i = some otx → tx.inTx.get? i = some txin →
      ∃ p, Tx.parse otx = some p ∧ Tx.id c.hash p = some txin.tx_id ∧
        txin.pos < p.outTx.length) :
    ∃ tuples, extractEv c (past_tx.zip tx.inTx) = some tuples ∧
      Tx.check_transaction c tx past_tx keys sigs mk
        = Tx.check_transaction_utxo c tx tuples keys sigs mk := by
  have hpair : ∀ i otx txin, (past_tx.zip tx.inTx).get? i = some (otx, txin) →
      ∃ p, Tx.parse otx = some p ∧ Tx.id c.hash p = some txin.tx_id ∧
        txin.pos < p.outTx.length := by
    intro i otx txin hi
    rw [List.get?_zip_eq_some] at hi
    exact hcons i otx txin hi.1 hi.2
  obtain ⟨ts, hw, he, hl⟩ := wrapLoop_extract c (past_tx.zip tx.inTx) hpair
  refine ⟨ts, he, ?_⟩
  by_cases hemp : past_tx = []
  · subst hemp
    have hts : ts = [] := by
      have h0 : wrapLoop c (List.zip [] tx.inTx) = some [] := rfl
      rw [h0] at hw
      exact (Option.some.inj hw).symm
    subst hts
    simp [Tx.check_transaction, Tx.check_transaction_utxo]
  · have hlz : (past_tx.zip tx.inTx).length = past_tx.length := by
      rw [List.length_zip, hlen]
      omega
    have htsl : ts.length = past_tx.length := by rw [hl, hlz]
    have hne0 : ¬ past_tx.length = 0 :=
      fun h0 => hemp (List.length_eq_zero.mp h0)
    have htsne0 : ¬ ts.length = 0 := by rw [htsl]; exact hne0
    rw [Tx.check_transaction, if_neg hne0]
    simp only []
    by_cases hk1 : past_tx.length = keys.length
    · by_cases hk2 : keys.length = sigs.length
      · by_cases hk3 : sigs.length = tx.inTx.length
        · rw [if_pos (show (decide (past_tx.length = keys.length) &&
              decide (keys.length = sigs.length) && decide (sigs.length = tx.inTx.length))
                = true from by simp [hk1, hk2, hk3])]
          simp only [hw]
          exact check_utxo_mk_irrel c tx ts keys sigs none mk
            (fun h0 => htsne0 (by rw [h0]; rfl))
        · rw [if_neg (show ¬ (decide (past_tx.length = keys.length) &&
              decide (keys.length = sigs.length) && decide (sigs.length = tx.inTx.length))
                = true from by simp [hk3]),
            Tx.check_transaction_utxo, if_neg htsne0]
          simp only []
          rw [if_neg (show ¬ (decide (0 < ts.length) && (decide (ts.length = keys.length) &&
              decide (keys.length = sigs.length) && decide (sigs.length = tx.inTx.length)))
                = true from by simp [hk3])]
      · rw [if_neg (show ¬ (decide (past_tx.length = keys.length) &&
            decide (keys.length = sigs.length) && decide (sigs.length = tx.inTx.length))
              = true from by simp [hk2]),
          Tx.check_transaction_utxo, if_neg htsne0]
        simp only []
        rw [if_neg (show ¬ (decide (0 < ts.length) && (decide (ts.length = keys.length) &&
            decide (keys.length = sigs.length) && decide (sigs.length = tx.inTx.length)))
              = true from by simp [hk2])]
    · rw [if_neg (show ¬ (decide (past_tx.length = keys.length) &&
          decide (keys.length = sigs.length) && decide (sigs.length = tx.inTx.length))
            = true from by simp [hk1]),
        Tx.check_transaction_utxo, if_neg htsne0]
      simp only []
      rw [if_neg (show ¬ (decide (0 < ts.length) && (decide (ts.length = keys.length) &&
          decide (keys.length = sigs.length) && decide (sigs.length = tx.inTx.length)))
            = true from by simp [htsl, hk1])]

/-- Concrete prior transaction for the C4 witness. -/
def prC4 : Tx := ⟨[], [⟨List.replicate 32 0, 7⟩]⟩

/-- Serialization of `prC4`. -/
def otxC4 : Bytes := (Tx.serialize prC4).getD []

/-- Concrete spending transaction whose input claims `prC4`'s id under
`cDemo` (the constant digest, 32 zeros) at position 0. -/
def txC4 : Tx := ⟨[⟨List.replicate 32 0, 0⟩], [⟨List.replicate 32 9, 7⟩]⟩

/-- Witness for C4 at a concrete consistent one-input spending transaction. -/
theorem c4_wrapper_refines_utxo_witness :
    ∃ tuples, extractEv cDemo ([otxC4].zip txC4.inTx) = some tuples ∧
      Tx.check_transaction cDemo txC4 [otxC4] [[7]] [sigDemo] (some [7])
        = Tx.check_transaction_utxo cDemo txC4 tuples [[7]] [sigDemo] (some [7]) :=
  c4_wrapper_refines_utxo cDemo txC4 [otxC4] [[7]] [sigDemo] (some [7]) (by decide)
    (by
      intro i otx txin h1 h2
      cases i with
      | zero =>
        injection h1 with e1
        injection h2 with e2
        subst e1
        subst e2
        exact ⟨prC4, by decide, by decide, by decide⟩
      | succ i => exact Option.noConfusion h1)

end RSCoin
